import Mathlib

/-!
# Verification of the segmentation-and-alignment core of `src/app.py`

Shallow embedding of the video word-search engine. Python dicts are modelled
as insertion-ordered association lists, millisecond times as `ℚ`
(Python computes `chunk_start_time + (i / len(words)) * chunk_length_ms`
with exact small-integer ratios), and the external `difflib` similarity is a
parameter `sim : String → String → ℚ`. Loops that are not structurally
recursive in Python (the `while` loop of `split_audio`, the phrase
concatenation loop) are embedded with explicit fuel so that every definition
is executable by kernel reduction; adequacy of the fuel is proved where a
claim needs it.
-/

set_option maxHeartbeats 1000000
set_option maxRecDepth 10000

namespace VideoSearch

/-! ### Insertion-ordered dictionaries (the Python `dict` pattern used in app.py) -/

abbrev Dict (V : Type) : Type := List (String × V)

def dictLookup {V : Type} : Dict V → String → Option V
  | [], _ => none
  | (k, v) :: rest, key => if k = key then some v else dictLookup rest key

def dictKeys {V : Type} (d : Dict V) : List String := d.map Prod.fst

def dictHas {V : Type} (d : Dict V) (k : String) : Bool := (dictLookup d k).isSome

/-- The Python pattern `d[k].append(v)` when `k in d`, else `d[k] = [v]`
(src/app.py lines 67-74 and 81-88). -/
def dictAppend {V : Type} : Dict (List V) → String → V → Dict (List V)
  | [], key, v => [(key, [v])]
  | (k, vs) :: rest, key, v =>
    if k = key then (k, vs ++ [v]) :: rest
    else (k, vs) :: dictAppend rest key v

/-- The Python pattern `d[k].extend(vs)` when `k in d`, else `d[k] = vs`
(src/app.py lines 177-181). -/
def dictExtend {V : Type} : Dict (List V) → String → List V → Dict (List V)
  | [], key, vs => [(key, vs)]
  | (k, ws) :: rest, key, vs =>
    if k = key then (k, ws ++ vs) :: rest
    else (k, ws) :: dictExtend rest key vs

/-! ### Tokenization: Python `str.lower().split()` -/

/-- Python `str.split()` over a character list: split on whitespace runs and
drop empty pieces.  `acc` holds the characters of the current word, reversed. -/
def splitWSAux : List Char → List Char → List String
  | [], acc => if acc.isEmpty then [] else [String.mk acc.reverse]
  | c :: cs, acc =>
    if c.isWhitespace then
      if acc.isEmpty then splitWSAux cs []
      else String.mk acc.reverse :: splitWSAux cs []
    else splitWSAux cs (c :: acc)

def splitWS (cs : List Char) : List String := splitWSAux cs []

/-- Python `str.lower()` (ASCII case folding, as `Char.toLower`). -/
def strLower (s : String) : String := String.mk (s.data.map Char.toLower)

/-- `transcript.lower().split()` (src/app.py line 60). -/
def tokenizeLower (s : String) : List String := splitWS (strLower s).data

/-- Whether a string contains a whitespace character.  Word keys never do,
phrase keys (joined with a space) always do. -/
def hasSpace (s : String) : Bool := s.data.any Char.isWhitespace

/-! ### Kernel-reducible rational arithmetic

Batteries marks `Rat.add`, `Rat.sub`, `Rat.mul`, `Rat.inv` `@[irreducible]`,
which blocks definitional evaluation of concrete runs; the embedding
therefore computes with the following equivalent operations (the bridge
lemmas `ratAdd_eq`, `ratSub_eq`, `ratMul_eq`, `ratDivByNat_eq` below prove
they are the field operations of `ℚ`). -/

def ratAdd (a b : ℚ) : ℚ := mkRat (a.num * b.den + b.num * a.den) (a.den * b.den)

def ratSub (a b : ℚ) : ℚ := mkRat (a.num * b.den - b.num * a.den) (a.den * b.den)

def ratMul (a b : ℚ) : ℚ := mkRat (a.num * b.num) (a.den * b.den)

def ratDivByNat (a : ℚ) (k : ℕ) : ℚ := mkRat a.num (a.den * k)

/-! ### `milliseconds_to_hms` (src/app.py lines 49-55) -/

/-- Python f-string `{n:02}`: decimal form, zero-padded on the left to width 2. -/
def pad2 (n : ℤ) : String :=
  if (toString n).length < 2 then "0" ++ toString n else toString n

/-- `milliseconds_to_hms` (src/app.py lines 49-55).  The Python code receives a
float (`word_time` is produced by true division) and applies `//` (floor
division) and `%`; we model the value as `ℚ` and the floor divisions by `⌊·⌋`.
`minutes % 60` and `seconds % 60` are computed exactly as in the source. -/
def milliseconds_to_hms (m : ℚ) : String :=
  let seconds : ℤ := ⌊ratDivByNat m 1000⌋
  let minutes : ℤ := ⌊ratDivByNat (seconds : ℚ) 60⌋
  let hours : ℤ := ⌊ratDivByNat (minutes : ℚ) 60⌋
  pad2 hours ++ ":" ++ pad2 (minutes % 60) ++ ":" ++ pad2 (seconds % 60)

/-- Modelled from the spec (section 4.4): zero-padding of one nonneg field. -/
def padSpec (n : ℕ) : String :=
  if (toString n).length < 2 then "0" ++ toString n else toString n

/-- Modelled from the spec (claim C9): `toDisplay` with
`HH = m div 3600000`, `MM = (m div 60000) mod 60`, `SS = (m div 1000) mod 60`,
pure integer-division truncation, no wraparound of the hours field. -/
def toDisplay (m : ℕ) : String :=
  padSpec (m / 3600000) ++ ":" ++ padSpec ((m / 60000) % 60) ++ ":" ++ padSpec ((m / 1000) % 60)

/-! ### `split_audio` (src/app.py lines 25-34)

The Python loop `while start < len(audio): chunks.append(audio[start:end]);
start += chunk_length_ms - overlap` is embedded with fuel; each emitted chunk
`audio[start : start + chunk_length_ms]` is represented by its start offset.
`none` means the loop did not finish within the given fuel. -/

def split_audio_loop : ℕ → ℤ → ℤ → ℤ → Option (List ℤ)
  | 0, duration, _, start =>
    if start < duration then none else some []
  | fuel + 1, duration, step, start =>
    if start < duration then
      (split_audio_loop fuel duration step (start + step)).map (fun l => start :: l)
    else some []

/-- The `split_audio` loop with the overlap generalized to a parameter; the
source fixes `overlap = 3000` (line 28), recovered by `split_audio` below. -/
def split_audio_starts (total_duration_ms window_length_ms overlap_ms : ℤ) (fuel : ℕ) :
    Option (List ℤ) :=
  split_audio_loop fuel total_duration_ms (window_length_ms - overlap_ms) 0

/-- `split_audio` exactly as in the source: overlap fixed at 3000 ms. -/
def split_audio (total_duration_ms chunk_length_ms : ℤ) (fuel : ℕ) : Option (List ℤ) :=
  split_audio_starts total_duration_ms chunk_length_ms 3000 fuel

/-! ### Fuzzy matching: `difflib.get_close_matches` (external library) -/

/-- The running best candidate while scanning the qualified candidates. -/
def pickBest (sim : String → String → ℚ) (word : String) (best : Option String) (c : String) :
    Option String :=
  match best with
  | none => some c
  | some b => if sim word b < sim word c then some c else some b

/-- Modelled from the spec (section 4.2 step 2 and design notes): the external
`difflib.get_close_matches(word, search_words, n=1, cutoff=cutoff)` — the
single best similarity match among the candidates, returned only when its
similarity is ≥ `cutoff`, for an abstract similarity `sim`.  `difflib` is an
external collaborator of the repository; only this documented contract is
modelled. -/
def get_close_match (sim : String → String → ℚ) (word : String) (cands : List String)
    (cutoff : ℚ) : Option String :=
  (cands.filter fun c => decide (cutoff ≤ sim word c)).foldl (pickBest sim word) none

/-- The per-token branch of the search loop (src/app.py lines 64-77): exact
membership in the search words first, otherwise fuzzy matching when enabled. -/
def matchToken (sim : String → String → ℚ) (sw : List String) (fuzzy : Bool) (cutoff : ℚ)
    (word : String) : Option String :=
  if word ∈ sw then some word
  else if fuzzy then get_close_match sim word sw cutoff
  else none

/-- The sequence of recorded occurrences `(token index, attributed word,
estimated time)` of the loop at src/app.py lines 63-88, in loop order, with
`word_time = chunk_start_time + (i / len(words)) * chunk_length_ms`; the two
dicts built by that loop are the two `foldl`s in
`search_word_in_transcript`. -/
def findOccs (sim : String → String → ℚ) (sw : List String) (fuzzy : Bool) (cutoff : ℚ)
    (start len_ms : ℚ) (words : List String) : List (ℕ × String × ℚ) :=
  words.enum.filterMap fun p =>
    (matchToken sim sw fuzzy cutoff p.2).map
      fun k => (p.1, k, ratAdd start (ratMul (mkRat p.1 words.length) len_ms))

/-! ### The phrase concatenation loop (src/app.py lines 90-120) -/

/-- Python `abs` on a rational, written so that it evaluates by kernel
reduction. -/
def ratAbs (x : ℚ) : ℚ := if x < 0 then -x else x

/-- Python binary `min` on rationals (first argument on ties), written so
that it evaluates by kernel reduction. -/
def ratMin (a b : ℚ) : ℚ := if a ≤ b then a else b

/-- `min(word_times[w])`; the lists stored are never empty, the Python sort
key guards the impossible empty case with `float('inf')` (here a default 0,
likewise unreachable). -/
def minKey (wt : Dict (List ℚ)) (w : String) : ℚ :=
  match dictLookup wt w with
  | some (t :: ts) => ts.foldl ratMin t
  | _ => 0

/-- The inner `while j < len(sorted_words)` loop (src/app.py lines 102-112):
keep absorbing the next word while its earliest time is within 1000 ms of the
most recently accepted word's earliest time (`current_times` is rebound to
each accepted word, so the reference advances). -/
def innerJoin (wt : Dict (List ℚ)) : ℚ → String → ℚ → List String → String × ℚ × List String
  | _, concatenated, min_time, [] => (concatenated, min_time, [])
  | refMin, concatenated, min_time, nw :: rest =>
    if ratAbs (ratSub (minKey wt nw) refMin) ≤ 1000 then
      innerJoin wt (minKey wt nw) (concatenated ++ " " ++ nw) (ratMin min_time (minKey wt nw)) rest
    else (concatenated, min_time, nw :: rest)

/-- The outer `while i < len(sorted_words) - 1` loop (src/app.py lines
94-118), with fuel so the definition is structural (the list length is always
enough fuel; adequacy is proved in `concatGo_eq_spec`).  A cluster is emitted
only when at least one word was absorbed (`concatenated != current_word`). -/
def concatGo (wt : Dict (List ℚ)) : ℕ → List String → List String × List ℚ
  | 0, _ => ([], [])
  | _, [] => ([], [])
  | _, [_] => ([], [])
  | fuel + 1, w :: nx :: rest =>
    let r := innerJoin wt (minKey wt w) w (minKey wt w) (nx :: rest)
    let tail := concatGo wt fuel r.2.2
    if r.1 ≠ w then (r.1 :: tail.1, r.2.1 :: tail.2) else tail

def concatLoop (wt : Dict (List ℚ)) (ws : List String) : List String × List ℚ :=
  concatGo wt ws.length ws

/-- Stable insertion of `x` after every element that compares ≤ to it. -/
def insertSorted (le : String → String → Bool) (x : String) : List String → List String
  | [] => [x]
  | y :: ys => if le y x then y :: insertSorted le x ys else x :: y :: ys

/-- Python `sorted(keys, key=...)` — a stable ascending sort (insertion sort,
extensionally the contract of `sorted`). -/
def sortBy (le : String → String → Bool) (l : List String) : List String :=
  l.foldl (fun acc x => insertSorted le x acc) []

/-- The `timestamps` dict of `search_word_in_transcript` (display strings,
filled at src/app.py lines 66-70 and 80-84). -/
def searchTimestamps (sim : String → String → ℚ) (transcript : String)
    (search_words : List String) (chunk_start_time chunk_length_ms : ℚ)
    (fuzzy_match : Bool) (cutoff : ℚ) : Dict (List String) :=
  (findOccs sim (search_words.map strLower) fuzzy_match cutoff chunk_start_time
      chunk_length_ms (tokenizeLower transcript)).foldl
    (fun d e => dictAppend d e.2.1 (milliseconds_to_hms e.2.2)) []

/-- The `word_times` dict of `search_word_in_transcript` (raw times, filled
at src/app.py lines 72-74 and 86-88). -/
def searchWordTimes (sim : String → String → ℚ) (transcript : String)
    (search_words : List String) (chunk_start_time chunk_length_ms : ℚ)
    (fuzzy_match : Bool) (cutoff : ℚ) : Dict (List ℚ) :=
  (findOccs sim (search_words.map strLower) fuzzy_match cutoff chunk_start_time
      chunk_length_ms (tokenizeLower transcript)).foldl
    (fun d e => dictAppend d e.2.1 e.2.2) []

/-- `sorted_words` (src/app.py line 92): the distinct words sorted,
stably and ascending, by earliest occurrence time. -/
def searchSorted (sim : String → String → ℚ) (transcript : String)
    (search_words : List String) (chunk_start_time chunk_length_ms : ℚ)
    (fuzzy_match : Bool) (cutoff : ℚ) : List String :=
  sortBy
    (fun a b => decide
      (minKey (searchWordTimes sim transcript search_words chunk_start_time chunk_length_ms
          fuzzy_match cutoff) a ≤
        minKey (searchWordTimes sim transcript search_words chunk_start_time chunk_length_ms
          fuzzy_match cutoff) b))
    (dictKeys (searchWordTimes sim transcript search_words chunk_start_time chunk_length_ms
      fuzzy_match cutoff))

/-- `search_word_in_transcript` (src/app.py lines 57-120): returns the
per-window `timestamps` dict, the concatenated phrase texts and their display
times. -/
def search_word_in_transcript (sim : String → String → ℚ) (transcript : String)
    (search_words : List String) (chunk_start_time chunk_length_ms : ℚ)
    (fuzzy_match : Bool) (cutoff : ℚ) : Dict (List String) × List String × List String :=
  (searchTimestamps sim transcript search_words chunk_start_time chunk_length_ms
      fuzzy_match cutoff,
    (concatLoop
      (searchWordTimes sim transcript search_words chunk_start_time chunk_length_ms
        fuzzy_match cutoff)
      (searchSorted sim transcript search_words chunk_start_time chunk_length_ms
        fuzzy_match cutoff)).1,
    (concatLoop
      (searchWordTimes sim transcript search_words chunk_start_time chunk_length_ms
        fuzzy_match cutoff)
      (searchSorted sim transcript search_words chunk_start_time chunk_length_ms
        fuzzy_match cutoff)).2.map milliseconds_to_hms)

/-! ### Spec-side clustering (section 4.3 of the spec) -/

/-- Modelled from the spec (section 4.3 step 3): the gap test between a word
`b` and the most recently accepted word `a`. -/
def gapOK (wt : Dict (List ℚ)) (a b : String) : Bool :=
  decide (ratAbs (ratSub (minKey wt b) (minKey wt a)) ≤ 1000)

/-- The maximal prefix of the list joinable to `x` by chained gap tests
(advancing the reference at every accepted element), and the rest. -/
def takeChain (R : String → String → Bool) : String → List String → List String × List String
  | _, [] => ([], [])
  | x, y :: ys =>
    if R x y then (y :: (takeChain R y ys).1, (takeChain R y ys).2)
    else ([], y :: ys)

/-- Modelled from the spec (section 4.3 step 3): greedy clustering of the
ordered word list.  Since the reference time always advances to the word just
processed (accepted or opening a new cluster), the clusters are exactly the
maximal runs whose adjacent gap tests pass. -/
def chunkGo (R : String → String → Bool) : ℕ → List String → List (List String)
  | _, [] => []
  | 0, x :: xs => [x :: xs]
  | fuel + 1, x :: xs => (x :: (takeChain R x xs).1) :: chunkGo R fuel (takeChain R x xs).2

def chunkBy (R : String → String → Bool) (l : List String) : List (List String) :=
  chunkGo R l.length l

def joinSpace : List String → String
  | [] => ""
  | w :: ws => ws.foldl (fun s x => s ++ " " ++ x) w

def minOverGroup (wt : Dict (List ℚ)) : List String → ℚ
  | [] => 0
  | w :: ws => ws.foldl (fun t x => ratMin t (minKey wt x)) (minKey wt w)

/-- Modelled from the spec (section 4.3 step 4): emit, for every cluster of
two or more distinct-position words, its space-joined text and the minimum of
the members' earliest times. -/
def specPhrases (wt : Dict (List ℚ)) (ws : List String) : List (String × ℚ) :=
  ((chunkBy (gapOK wt) ws).filter fun g => decide (2 ≤ g.length)).map
    fun g => (joinSpace g, minOverGroup wt g)

/-! ### The `process` accumulation loop (src/app.py lines 137-193) -/

/-- One window's search result: window `i` has
`chunk_start_time = i * (15000 - 3000)` and chunk length 15000
(src/app.py lines 160, 169, 173-175). -/
def windowResult (sim : String → String → ℚ) (sw : List String) (fuzzy : Bool) (cutoff : ℚ)
    (i : ℕ) (t : String) : Dict (List String) × List String × List String :=
  search_word_in_transcript sim t sw (ratMul (i : ℚ) (ratSub 15000 3000)) 15000 fuzzy cutoff

/-- Merging one window's results into the global map (src/app.py lines
177-185): word lists extend an existing key or create it; a concatenated
phrase is added only when its text is not yet a key. -/
def stepWindow (sim : String → String → ℚ) (sw : List String) (fuzzy : Bool) (cutoff : ℚ)
    (acc : Dict (List String)) (i : ℕ) (t : String) : Dict (List String) :=
  let r := windowResult sim sw fuzzy cutoff i t
  let acc1 := r.1.foldl (fun a e => dictExtend a e.1 e.2) acc
  (r.2.1.zip r.2.2).foldl (fun a e => if dictHas a e.1 then a else a ++ [(e.1, [e.2])]) acc1

/-- The `for i, chunk in enumerate(chunks)` accumulation loop of `process`
(src/app.py lines 166-185), over the per-window transcripts (transcription
itself is the external ASR collaborator). -/
def processGo (sim : String → String → ℚ) (sw : List String) (fuzzy : Bool) (cutoff : ℚ) :
    ℕ → Dict (List String) → List String → Dict (List String)
  | _, acc, [] => acc
  | i, acc, t :: ts =>
    processGo sim sw fuzzy cutoff (i + 1) (stepWindow sim sw fuzzy cutoff acc i t) ts

def process_loop (sim : String → String → ℚ) (sw : List String) (fuzzy : Bool) (cutoff : ℚ)
    (transcripts : List String) : Dict (List String) :=
  processGo sim sw fuzzy cutoff 0 [] transcripts

/-- The display time recorded by the earliest window whose concatenated
phrases contain `p` (scanning windows in order). -/
def firstPhraseTime (sim : String → String → ℚ) (sw : List String) (fuzzy : Bool) (cutoff : ℚ) :
    ℕ → List String → String → Option String
  | _, [], _ => none
  | i, t :: ts, p =>
    match dictLookup ((windowResult sim sw fuzzy cutoff i t).2.1.zip
        (windowResult sim sw fuzzy cutoff i t).2.2) p with
    | some v => some v
    | none => firstPhraseTime sim sw fuzzy cutoff (i + 1) ts p

/-- The concatenation, in window order, of the per-window display-time lists
recorded for word `w`. -/
def wordListsFrom (sim : String → String → ℚ) (sw : List String) (fuzzy : Bool) (cutoff : ℚ) :
    ℕ → List String → String → List String
  | _, [], _ => []
  | i, t :: ts, w =>
    (dictLookup (windowResult sim sw fuzzy cutoff i t).1 w).getD [] ++
      wordListsFrom sim sw fuzzy cutoff (i + 1) ts w

/-- A trivial concrete similarity, used by witnesses that do not exercise
fuzzy matching. -/
def simZero : String → String → ℚ := fun _ _ => 0

def wtC7 : Dict (List ℚ) := [("aa", [0]), ("bb", [1000]), ("cc", [2000])]

def cxT0 : String := "a b c d alpha"

def cxT1 : String := "beta c"

def tA : String := "alpha beta c c c c c c c c c c c c c"

/-! ## Theorems -/

/-! ### Bridge lemmas for the reducible rational operations -/

theorem ratAdd_eq (a b : ℚ) : ratAdd a b = a + b := by
  rw [ratAdd, Rat.mkRat_eq_div]
  have ha : ((a.den : ℚ)) ≠ 0 := Nat.cast_ne_zero.mpr a.den_nz
  have hb : ((b.den : ℚ)) ≠ 0 := Nat.cast_ne_zero.mpr b.den_nz
  conv_rhs => rw [← Rat.num_div_den a, ← Rat.num_div_den b]
  push_cast
  field_simp
  try ring

theorem ratSub_eq (a b : ℚ) : ratSub a b = a - b := by
  rw [ratSub, Rat.mkRat_eq_div]
  have ha : ((a.den : ℚ)) ≠ 0 := Nat.cast_ne_zero.mpr a.den_nz
  have hb : ((b.den : ℚ)) ≠ 0 := Nat.cast_ne_zero.mpr b.den_nz
  conv_rhs => rw [← Rat.num_div_den a, ← Rat.num_div_den b]
  push_cast
  field_simp
  try ring

theorem ratMul_eq (a b : ℚ) : ratMul a b = a * b := by
  rw [ratMul, Rat.mkRat_eq_div]
  have ha : ((a.den : ℚ)) ≠ 0 := Nat.cast_ne_zero.mpr a.den_nz
  have hb : ((b.den : ℚ)) ≠ 0 := Nat.cast_ne_zero.mpr b.den_nz
  conv_rhs => rw [← Rat.num_div_den a, ← Rat.num_div_den b]
  push_cast
  field_simp
  try ring

theorem ratDivByNat_eq (a : ℚ) (k : ℕ) : ratDivByNat a k = a / (k : ℚ) := by
  calc ratDivByNat a k = ((a.num : ℚ)) / (((a.den * k : ℕ) : ℚ)) := Rat.mkRat_eq_div _ _
    _ = (a.num : ℚ) / ((a.den : ℚ) * (k : ℚ)) := by push_cast; ring_nf
    _ = ((a.num : ℚ) / (a.den : ℚ)) / (k : ℚ) := (div_div _ _ _).symm
    _ = a / (k : ℚ) := by rw [Rat.num_div_den]

theorem mkRat_natCast_div (i n : ℕ) : (mkRat (i : ℤ) n : ℚ) = (i : ℚ) / (n : ℚ) := by
  rw [Rat.mkRat_eq_div]
  push_cast
  rfl

theorem ratTime_eq (start len_ms : ℚ) (i n : ℕ) :
    ratAdd start (ratMul (mkRat (i : ℤ) n) len_ms) =
      start + ((i : ℚ) / (n : ℚ)) * len_ms := by
  rw [ratAdd_eq, ratMul_eq, mkRat_natCast_div]

/-! ### Basic lemmas for the time codec -/

theorem floorNatDivQ (a k : ℕ) : ⌊(a : ℚ) / (k : ℚ)⌋ = ((a / k : ℕ) : ℤ) := by
  rcases Nat.eq_zero_or_pos k with hk | hk
  · subst hk; simp
  · have hk' : (0 : ℚ) < (k : ℚ) := by exact_mod_cast hk
    rw [Int.floor_eq_iff]
    constructor
    · rw [le_div_iff₀ hk']
      exact_mod_cast Nat.div_mul_le_self a k
    · rw [div_lt_iff₀ hk']
      have h2 : a < (a / k + 1) * k := by
        have h3 := Nat.div_add_mod a k
        have h4 := Nat.mod_lt a hk
        calc a = k * (a / k) + a % k := h3.symm
          _ < k * (a / k) + k := by omega
          _ = (a / k + 1) * k := by ring
      exact_mod_cast h2

theorem pad2_natCast (n : ℕ) : pad2 (n : ℤ) = padSpec n := rfl

/-- Claim C9: the display conversion, on every nonnegative integer number of
milliseconds, is the pure integer-division decomposition
`HH:MM:SS` with `HH = m div 3600000`, `MM = (m div 60000) mod 60`,
`SS = (m div 1000) mod 60`, each zero-padded to at least two digits, with no
upper bound (no wraparound) on the hours field. -/
theorem hms_C9 (m : ℕ) : milliseconds_to_hms (m : ℚ) = toDisplay m := by
  have e1 : ⌊ratDivByNat ((m : ℕ) : ℚ) 1000⌋ = ((m / 1000 : ℕ) : ℤ) := by
    rw [ratDivByNat_eq]
    simpa using floorNatDivQ m 1000
  have e2 : ⌊ratDivByNat ((((m / 1000 : ℕ) : ℤ)) : ℚ) 60⌋ = ((m / 1000 / 60 : ℕ) : ℤ) := by
    rw [ratDivByNat_eq]
    simpa using floorNatDivQ (m / 1000) 60
  have e3 : ⌊ratDivByNat ((((m / 1000 / 60 : ℕ) : ℤ)) : ℚ) 60⌋ = ((m / 1000 / 60 / 60 : ℕ) : ℤ) := by
    rw [ratDivByNat_eq]
    simpa using floorNatDivQ (m / 1000 / 60) 60
  have d1 : m / 1000 / 60 = m / 60000 := by
    rw [Nat.div_div_eq_div_mul]
  have d2 : m / 1000 / 60 / 60 = m / 3600000 := by
    rw [Nat.div_div_eq_div_mul, Nat.div_div_eq_div_mul]
  have md1 : ((m / 1000 / 60 : ℕ) : ℤ) % 60 = ((m / 60000 % 60 : ℕ) : ℤ) := by
    rw [d1]; push_cast; rfl
  have md2 : ((m / 1000 : ℕ) : ℤ) % 60 = ((m / 1000 % 60 : ℕ) : ℤ) := by
    push_cast; rfl
  simp only [milliseconds_to_hms, toDisplay, e1, e2, e3, d2, md1, md2, pad2_natCast]

/-! ### Claim C2: segmentation emits starts 0, s, 2s, ... (s = length − overlap) -/

theorem split_audio_loop_spec :
    ∀ (fuel : ℕ) (d s start : ℤ), 0 < s → d ≤ start + (fuel : ℤ) * s →
      ∃ n : ℕ,
        split_audio_loop fuel d s start =
          some ((List.range n).map fun m : ℕ => start + (m : ℤ) * s) ∧
        (∀ m : ℕ, m < n → start + (m : ℤ) * s < d) ∧ d ≤ start + (n : ℤ) * s := by
  intro fuel
  induction fuel with
  | zero =>
    intro d s start hs hle
    refine ⟨0, ?_, ?_, ?_⟩
    · have : ¬ start < d := by push_cast at hle; omega
      simp [split_audio_loop, this]
    · intro m hm; omega
    · push_cast at hle ⊢; omega
  | succ f ih =>
    intro d s start hs hle
    by_cases hlt : start < d
    · have hle' : d ≤ (start + s) + (f : ℤ) * s := by push_cast at hle ⊢; ring_nf; ring_nf at hle; linarith
      obtain ⟨n, heq, hbound, hstop⟩ := ih d s (start + s) hs hle'
      refine ⟨n + 1, ?_, ?_, ?_⟩
      · rw [split_audio_loop, if_pos hlt, heq, Option.map_some']
        have hmap : ((List.range (n + 1)).map fun m : ℕ => start + (m : ℤ) * s)
            = start :: ((List.range n).map fun m : ℕ => (start + s) + (m : ℤ) * s) := by
          rw [List.range_succ_eq_map, List.map_cons, List.map_map]
          congr 1
          · simp
          · apply List.map_congr_left
            intro m _
            simp only [Function.comp_apply]
            push_cast
            ring
        rw [hmap]
      · intro m hm
        rcases Nat.eq_zero_or_pos m with h0 | hpos
        · subst h0; simpa using hlt
        · obtain ⟨m', rfl⟩ := Nat.exists_eq_succ_of_ne_zero (Nat.pos_iff_ne_zero.mp hpos)
          have := hbound m' (by omega)
          push_cast at this ⊢
          linarith [this]
      · push_cast at hstop ⊢
        linarith
    · refine ⟨0, ?_, ?_, ?_⟩
      · simp [split_audio_loop, hlt]
      · intro m hm; omega
      · push_cast; omega

/-- Claim C2: for every positive total duration and `window_length > overlap > 0`
(the source fixes `overlap = 3000`; it is generalized to a parameter here),
the segmentation loop terminates and emits the non-empty ordered sequence of
window starts `0, s, 2s, ...` with `s = window_length − overlap`, every
emitted start is `< total_duration`, and the first non-emitted start `n·s`
is `≥ total_duration` (so consecutive windows overlap by exactly `overlap`). -/
theorem split_audio_C2 (d L O : ℤ) (fuel : ℕ) (hd : 0 < d) (hO : 0 < O) (hLO : O < L)
    (hfuel : d ≤ (fuel : ℤ) * (L - O)) :
    ∃ n : ℕ, 0 < n ∧
      split_audio_starts d L O fuel =
        some ((List.range n).map fun m : ℕ => (m : ℤ) * (L - O)) ∧
      (∀ m : ℕ, m < n → (m : ℤ) * (L - O) < d) ∧ d ≤ (n : ℤ) * (L - O) := by
  have hs : 0 < L - O := by linarith
  obtain ⟨n, heq, hbound, hstop⟩ :=
    split_audio_loop_spec fuel d (L - O) 0 hs (by linarith)
  refine ⟨n, ?_, ?_, ?_, ?_⟩
  · rcases Nat.eq_zero_or_pos n with h0 | hpos
    · subst h0; simp at hstop; omega
    · exact hpos
  · rw [show split_audio_starts d L O fuel = split_audio_loop fuel d (L - O) 0 from rfl, heq]
    congr 1
    apply List.map_congr_left
    intro m _
    ring
  · intro m hm
    have := hbound m hm
    linarith
  · linarith [hstop]

/-- Witness for C2 at the spec's scenario: duration 40000, window length 15000,
overlap 3000 gives starts 0, 12000, 24000, 36000. -/
theorem split_audio_C2_witness :
    split_audio_starts 40000 15000 3000 4 = some [0, 12000, 24000, 36000] ∧
    (∃ n : ℕ, 0 < n ∧
      split_audio_starts 40000 15000 3000 4 =
        some ((List.range n).map fun m : ℕ => (m : ℤ) * (15000 - 3000)) ∧
      (∀ m : ℕ, m < n → (m : ℤ) * (15000 - 3000) < 40000) ∧
      (40000 : ℤ) ≤ (n : ℤ) * (15000 - 3000)) :=
  ⟨by decide, split_audio_C2 40000 15000 3000 4 (by decide) (by decide) (by decide)
    (by norm_num)⟩

/-- Claim C8 (code bug): with `chunk_length_ms = 3000` (equal to the hardcoded
overlap) and a 1000 ms audio, `split_audio` performs no validation and its
`while` loop never terminates — `start` never advances — contrary to the
spec's fail-fast requirement.  For every fuel bound the loop is still running. -/
theorem split_audio_C8 : ∀ fuel : ℕ, split_audio 1000 3000 fuel = none := by
  have key : ∀ fuel : ℕ, split_audio_loop fuel 1000 0 0 = none := by
    intro fuel
    induction fuel with
    | zero => norm_num [split_audio_loop]
    | succ f ih =>
      rw [split_audio_loop, if_pos (by norm_num)]
      simpa using congrArg (Option.map (fun l => (0 : ℤ) :: l)) ih
  intro fuel
  have h30 : (3000 : ℤ) - 3000 = 0 := by norm_num
  rw [split_audio, split_audio_starts, h30]
  exact key fuel

theorem takeChain_append (R : String → String → Bool) :
    ∀ (l : List String) (x : String), (takeChain R x l).1 ++ (takeChain R x l).2 = l := by
  intro l
  induction l with
  | nil => intro x; rfl
  | cons y ys ih =>
    intro x
    by_cases h : R x y
    · simp only [takeChain, if_pos h, List.cons_append, ih y]
    · simp [takeChain, if_neg h]

theorem takeChain_rest_le (R : String → String → Bool) (l : List String) (x : String) :
    (takeChain R x l).2.length ≤ l.length := by
  have h := congrArg List.length (takeChain_append R l x)
  rw [List.length_append] at h
  omega

theorem ratAbs_eq_abs (x : ℚ) : ratAbs x = |x| := by
  rw [ratAbs]
  rcases lt_or_le x 0 with h | h
  · rw [if_pos h, abs_of_neg h]
  · rw [if_neg (not_lt.mpr h), abs_of_nonneg h]

theorem ratMin_eq_min (a b : ℚ) : ratMin a b = min a b := by
  rw [ratMin]
  exact (min_def a b).symm

/-! ### Helper lemmas on enumerated lists -/

theorem mem_enumFrom_facts {α : Type} :
    ∀ (l : List α) (n : ℕ) (p : ℕ × α),
      p ∈ l.enumFrom n → n ≤ p.1 ∧ p.1 < n + l.length ∧ p.2 ∈ l := by
  intro l
  induction l with
  | nil => intro n p hp; simp at hp
  | cons x xs ih =>
    intro n p hp
    rw [List.enumFrom_cons] at hp
    rcases List.mem_cons.mp hp with h | h
    · subst h
      refine ⟨Nat.le_refl n, ?_, List.mem_cons_self x xs⟩
      simp only [List.length_cons]
      omega
    · obtain ⟨h1, h2, h3⟩ := ih (n + 1) p h
      refine ⟨by omega, ?_, List.mem_cons_of_mem _ h3⟩
      simp only [List.length_cons]
      omega

theorem enumFrom_pairwise_lt {α : Type} :
    ∀ (l : List α) (n : ℕ), (l.enumFrom n).Pairwise (fun a b => a.1 < b.1) := by
  intro l
  induction l with
  | nil => intro n; simp
  | cons x xs ih =>
    intro n
    rw [List.enumFrom_cons]
    refine List.Pairwise.cons ?_ (ih (n + 1))
    intro b hb
    have := (mem_enumFrom_facts xs (n + 1) b hb).1
    omega

theorem enum_pairwise_lt {α : Type} (l : List α) :
    l.enum.Pairwise (fun a b => a.1 < b.1) := by
  simpa [List.enum] using enumFrom_pairwise_lt l 0

/-! ### Claims C3, C4, C5: the occurrence finder -/

theorem findOccs_mem (sim : String → String → ℚ) (sw : List String) (fuzzy : Bool)
    (cutoff start len_ms : ℚ) (words : List String) :
    ∀ e ∈ findOccs sim sw fuzzy cutoff start len_ms words,
      (∃ w, (e.1, w) ∈ words.enum ∧ matchToken sim sw fuzzy cutoff w = some e.2.1) ∧
      e.2.2 = start + ((e.1 : ℚ) / (words.length : ℚ)) * len_ms := by
  intro e he
  rw [findOccs, List.mem_filterMap] at he
  obtain ⟨p, hp, hfe⟩ := he
  rw [Option.map_eq_some'] at hfe
  obtain ⟨k, hk, heq⟩ := hfe
  subst heq
  exact ⟨⟨p.2, hp, hk⟩, ratTime_eq start len_ms p.1 words.length⟩

/-- Claim C3: every recorded occurrence for the token at index `i` of the `n`
tokens has estimated time `chunk_start_time + (i / n) * chunk_length_ms`
(exactly the expression at src/app.py lines 65 and 79), the index is in
range, and — for a nonnegative window length — the estimated times are
monotonically non-decreasing along the occurrence sequence. -/
theorem search_C3 (sim : String → String → ℚ) (sw : List String) (fuzzy : Bool)
    (cutoff start len_ms : ℚ) (words : List String) (hL : 0 ≤ len_ms) :
    (∀ e ∈ findOccs sim sw fuzzy cutoff start len_ms words,
      e.2.2 = start + ((e.1 : ℚ) / (words.length : ℚ)) * len_ms ∧ e.1 < words.length) ∧
    (findOccs sim sw fuzzy cutoff start len_ms words).Pairwise
      (fun a b => a.2.2 ≤ b.2.2) := by
  constructor
  · intro e he
    have h1 := findOccs_mem sim sw fuzzy cutoff start len_ms words e he
    refine ⟨h1.2, ?_⟩
    obtain ⟨w, hw, _⟩ := h1.1
    have := (mem_enumFrom_facts words 0 (e.1, w) (by simpa [List.enum] using hw)).2.1
    simpa using this
  · rw [findOccs]
    refine List.Pairwise.filterMap _ ?_ (enum_pairwise_lt words)
    intro a a' hlt b hb b' hb'
    rw [Option.mem_def, Option.map_eq_some'] at hb hb'
    obtain ⟨k, _, hbe⟩ := hb
    obtain ⟨k', _, hbe'⟩ := hb'
    subst hbe hbe'
    show ratAdd start (ratMul (mkRat (a.1 : ℤ) words.length) len_ms) ≤
      ratAdd start (ratMul (mkRat (a'.1 : ℤ) words.length) len_ms)
    rw [ratTime_eq, ratTime_eq]
    have hdiv : ((a.1 : ℚ) / (words.length : ℚ)) ≤ ((a'.1 : ℚ) / (words.length : ℚ)) := by
      rw [div_eq_mul_inv, div_eq_mul_inv]
      have hnum : ((a.1 : ℚ)) ≤ ((a'.1 : ℚ)) := by exact_mod_cast Nat.le_of_lt hlt
      have hden : (0 : ℚ) ≤ ((words.length : ℚ))⁻¹ := by positivity
      exact mul_le_mul_of_nonneg_right hnum hden
    have := mul_le_mul_of_nonneg_right hdiv hL
    linarith

/-- Witness for C3 on the spec scenario: transcript "the quick brown fox",
search terms quick and fox, window start 0 and length 4000. -/
theorem search_C3_witness :
    (0 : ℚ) ≤ 4000 ∧
    ((∀ e ∈ findOccs simZero ["quick", "fox"] false (4/5) 0 4000
        ["the", "quick", "brown", "fox"],
      e.2.2 = 0 + ((e.1 : ℚ) / ((["the", "quick", "brown", "fox"] : List String).length : ℚ)) * 4000 ∧
        e.1 < (["the", "quick", "brown", "fox"] : List String).length) ∧
    (findOccs simZero ["quick", "fox"] false (4/5) 0 4000
        ["the", "quick", "brown", "fox"]).Pairwise (fun a b => a.2.2 ≤ b.2.2)) :=
  ⟨by norm_num,
    search_C3 simZero ["quick", "fox"] false (4/5) 0 4000
      ["the", "quick", "brown", "fox"] (by norm_num)⟩

theorem pickBest_cases (sim : String → String → ℚ) (word : String) (acc : Option String)
    (c : String) :
    (pickBest sim word acc c = some c ∧ ∀ b, acc = some b → sim word b ≤ sim word c) ∨
    (∃ b, acc = some b ∧ pickBest sim word acc c = some b ∧ sim word c ≤ sim word b) := by
  cases acc with
  | none => exact Or.inl ⟨rfl, fun b hb => by cases hb⟩
  | some b =>
    by_cases h : sim word b < sim word c
    · refine Or.inl ⟨?_, ?_⟩
      · simp [pickBest, if_pos h]
      · intro b' hb'
        cases hb'
        exact le_of_lt h
    · exact Or.inr ⟨b, rfl, by simp [pickBest, if_neg h], not_lt.mp h⟩

theorem pickBest_fold (sim : String → String → ℚ) (word : String) :
    ∀ (l : List String) (acc : Option String) (k : String),
      l.foldl (pickBest sim word) acc = some k →
      (acc = some k ∨ k ∈ l) ∧ (∀ c ∈ l, sim word c ≤ sim word k) ∧
        (∀ b, acc = some b → sim word b ≤ sim word k) := by
  intro l
  induction l with
  | nil =>
    intro acc k h
    simp only [List.foldl_nil] at h
    refine ⟨Or.inl h, by simp, fun b hb => ?_⟩
    rw [hb] at h
    cases h
    exact le_refl _
  | cons c l' ih =>
    intro acc k h
    rw [List.foldl_cons] at h
    obtain ⟨h1, h2, h3⟩ := ih (pickBest sim word acc c) k h
    rcases pickBest_cases sim word acc c with ⟨hA1, hA2⟩ | ⟨b, hB1, hB2, hB3⟩
    · have hck : sim word c ≤ sim word k := h3 c hA1
      refine ⟨?_, ?_, ?_⟩
      · rcases h1 with h1 | h1
        · rw [hA1] at h1
          right
          rw [← Option.some.inj h1]
          exact List.mem_cons_self c l'
        · exact Or.inr (List.mem_cons_of_mem _ h1)
      · intro x hx
        rcases List.mem_cons.mp hx with rfl | hx'
        · exact hck
        · exact h2 x hx'
      · intro b' hb'
        exact le_trans (hA2 b' hb') hck
    · have hbk : sim word b ≤ sim word k := h3 b hB2
      refine ⟨?_, ?_, ?_⟩
      · rcases h1 with h1 | h1
        · rw [hB2] at h1
          left
          rw [hB1, Option.some.inj h1]
        · exact Or.inr (List.mem_cons_of_mem _ h1)
      · intro x hx
        rcases List.mem_cons.mp hx with rfl | hx'
        · exact le_trans hB3 hbk
        · exact h2 x hx'
      · intro b' hb'
        rw [hB1] at hb'
        rw [← Option.some.inj hb']
        exact hbk

theorem get_close_match_some (sim : String → String → ℚ) (word : String)
    (cands : List String) (cutoff : ℚ) (k : String)
    (h : get_close_match sim word cands cutoff = some k) :
    k ∈ cands ∧ cutoff ≤ sim word k ∧
      ∀ c ∈ cands, cutoff ≤ sim word c → sim word c ≤ sim word k := by
  rw [get_close_match] at h
  obtain ⟨h1, h2, _⟩ := pickBest_fold sim word _ none k h
  have hk : k ∈ cands.filter fun c => decide (cutoff ≤ sim word c) := by
    rcases h1 with h1 | h1
    · cases h1
    · exact h1
  rw [List.mem_filter] at hk
  refine ⟨hk.1, of_decide_eq_true hk.2, ?_⟩
  intro c hc hcut
  apply h2
  rw [List.mem_filter]
  exact ⟨hc, decide_eq_true hcut⟩

theorem get_close_match_none (sim : String → String → ℚ) (word : String)
    (cands : List String) (cutoff : ℚ) (h : ∀ c ∈ cands, sim word c < cutoff) :
    get_close_match sim word cands cutoff = none := by
  rw [get_close_match]
  have hnil : cands.filter (fun c => decide (cutoff ≤ sim word c)) = [] := by
    rw [List.filter_eq_nil_iff]
    intro c hc
    simp only [decide_eq_true_eq]
    exact not_le.mpr (h c hc)
  rw [hnil]
  rfl

/-- Claim C4: each token is matched to at most one search term.  Exact
(lower-cased) membership is recorded under the token itself and fuzzy matching
is not attempted; otherwise, when fuzzy matching is enabled, a successful
best-match attributes the occurrence to the matched search term — a member of
the search set with similarity ≥ the cutoff, maximal among qualifying terms;
a token (outside the search set) below the cutoff for every term produces no
occurrence.  Every element of the occurrence sequence arises from exactly
this per-token decision. -/
theorem search_C4 (sim : String → String → ℚ) (sw : List String) (fuzzy : Bool)
    (cutoff start len_ms : ℚ) (words : List String) :
    (∀ w, w ∈ sw → matchToken sim sw fuzzy cutoff w = some w) ∧
    (∀ w k, matchToken sim sw fuzzy cutoff w = some k →
      (w ∈ sw ∧ k = w) ∨
      (w ∉ sw ∧ fuzzy = true ∧ k ∈ sw ∧ cutoff ≤ sim w k ∧
        ∀ c ∈ sw, cutoff ≤ sim w c → sim w c ≤ sim w k)) ∧
    (∀ w, w ∉ sw → (∀ c ∈ sw, sim w c < cutoff) →
      matchToken sim sw fuzzy cutoff w = none) ∧
    (∀ e, e ∈ findOccs sim sw fuzzy cutoff start len_ms words ↔
      ∃ w, (e.1, w) ∈ words.enum ∧ matchToken sim sw fuzzy cutoff w = some e.2.1 ∧
        e.2.2 = start + ((e.1 : ℚ) / (words.length : ℚ)) * len_ms) := by
  refine ⟨?_, ?_, ?_, ?_⟩
  · intro w hw
    rw [matchToken, if_pos hw]
  · intro w k h
    rw [matchToken] at h
    by_cases hw : w ∈ sw
    · rw [if_pos hw] at h
      exact Or.inl ⟨hw, (Option.some.inj h).symm⟩
    · rw [if_neg hw] at h
      cases hf : fuzzy with
      | false =>
        rw [hf] at h
        simp at h
      | true =>
        rw [hf] at h
        simp only [if_true] at h
        obtain ⟨h1, h2, h3⟩ := get_close_match_some sim w sw cutoff k h
        exact Or.inr ⟨hw, rfl, h1, h2, h3⟩
  · intro w hw hbelow
    rw [matchToken, if_neg hw]
    cases hf : fuzzy with
    | false => simp
    | true => simp [get_close_match_none sim w sw cutoff hbelow]
  · intro e
    constructor
    · intro he
      obtain ⟨⟨w, hw1, hw2⟩, hf⟩ :=
        findOccs_mem sim sw fuzzy cutoff start len_ms words e he
      exact ⟨w, hw1, hw2, hf⟩
    · rintro ⟨w, hw1, hw2, hf⟩
      rw [findOccs, List.mem_filterMap]
      refine ⟨(e.1, w), hw1, ?_⟩
      rw [hw2]
      simp only [Option.map_some']
      rw [ratTime_eq start len_ms e.1 words.length, ← hf]

/-- Witness for C4: exact match takes priority (concrete instance). -/
theorem search_C4_witness :
    matchToken simZero ["ab"] false 0 "ab" = some "ab" :=
  (search_C4 simZero ["ab"] false 0 0 0 []).1 "ab" (by decide)

theorem findOccs_eq_nil (sim : String → String → ℚ) (sw : List String) (fuzzy : Bool)
    (cutoff start len_ms : ℚ) (words : List String)
    (h : ∀ w ∈ words, matchToken sim sw fuzzy cutoff w = none) :
    findOccs sim sw fuzzy cutoff start len_ms words = [] := by
  rw [findOccs, List.filterMap_eq_nil_iff]
  intro p hp
  have hmem := (mem_enumFrom_facts words 0 p (by simpa [List.enum] using hp)).2.2
  rw [h p.2 hmem]
  rfl

/-- Claim C5: on an empty transcript — and on any transcript none of whose
tokens matches a search term exactly or within the fuzzy cutoff — the finder
returns the empty timestamp map and empty phrase lists; being a total
function of its inputs it raises nothing. -/
theorem search_C5 (sim : String → String → ℚ) (transcript : String)
    (search_words : List String) (chunk_start_time chunk_length_ms : ℚ)
    (fuzzy_match : Bool) (cutoff : ℚ)
    (h : ∀ w ∈ tokenizeLower transcript,
      matchToken sim (search_words.map strLower) fuzzy_match cutoff w = none) :
    search_word_in_transcript sim transcript search_words chunk_start_time chunk_length_ms
      fuzzy_match cutoff = ([], [], []) := by
  rw [search_word_in_transcript]
  simp only [searchTimestamps, searchWordTimes, searchSorted,
    findOccs_eq_nil _ _ _ _ _ _ _ h]
  rfl

/-- Witness for C5: the empty transcript yields the empty result. -/
theorem search_C5_witness :
    search_word_in_transcript simZero "" ["alpha"] 0 15000 false (4/5) = ([], [], []) :=
  search_C5 simZero "" ["alpha"] 0 15000 false (4/5) (by decide)

/-! ### Claim C6: the concatenation loop refines the spec's greedy clustering -/

theorem innerJoin_eq_takeChain (wt : Dict (List ℚ)) :
    ∀ (ys : List String) (x concatenated : String) (min_time : ℚ),
      innerJoin wt (minKey wt x) concatenated min_time ys =
        ((takeChain (gapOK wt) x ys).1.foldl (fun s y => s ++ " " ++ y) concatenated,
         (takeChain (gapOK wt) x ys).1.foldl (fun t y => ratMin t (minKey wt y)) min_time,
         (takeChain (gapOK wt) x ys).2) := by
  intro ys
  induction ys with
  | nil => intro x c m; rfl
  | cons y ys' ih =>
    intro x c m
    by_cases h : ratAbs (ratSub (minKey wt y) (minKey wt x)) ≤ 1000
    · have hg : gapOK wt x y = true := decide_eq_true h
      simp only [innerJoin, if_pos h, takeChain, hg, if_true, List.foldl_cons]
      exact ih y (c ++ " " ++ y) (ratMin m (minKey wt y))
    · have hg : gapOK wt x y = false := decide_eq_false h
      simp only [innerJoin, if_neg h, takeChain, hg, Bool.false_eq_true, if_false,
        List.foldl_nil]

theorem chunkGo_fuel_irrel (R : String → String → Bool) :
    ∀ (f1 : ℕ) (l : List String) (f2 : ℕ), l.length ≤ f1 → l.length ≤ f2 →
      chunkGo R f1 l = chunkGo R f2 l := by
  intro f1
  induction f1 with
  | zero =>
    intro l f2 h1 _
    have hnil : l = [] := List.length_eq_zero.mp (Nat.le_zero.mp h1)
    subst hnil
    cases f2 <;> rfl
  | succ f ih =>
    intro l f2 h1 h2
    match l with
    | [] => cases f2 <;> rfl
    | x :: xs =>
      match f2 with
      | 0 => simp at h2
      | f2' + 1 =>
        simp only [chunkGo]
        congr 1
        apply ih
        · have := takeChain_rest_le R xs x
          simp only [List.length_cons] at h1
          omega
        · have := takeChain_rest_le R xs x
          simp only [List.length_cons] at h2
          omega

theorem foldl_joinStep_length (l : List String) :
    ∀ s : String, s.length ≤ (l.foldl (fun a x => a ++ " " ++ x) s).length := by
  induction l with
  | nil => intro s; simp
  | cons x xs ih =>
    intro s
    rw [List.foldl_cons]
    refine le_trans ?_ (ih (s ++ " " ++ x))
    simp only [String.length_append]
    omega

theorem foldl_joinStep_ne (w q : String) (qs : List String) :
    (q :: qs).foldl (fun a x => a ++ " " ++ x) w ≠ w := by
  intro hEq
  have h1 : (w ++ " " ++ q).length ≤ ((q :: qs).foldl (fun a x => a ++ " " ++ x) w).length := by
    rw [List.foldl_cons]
    exact foldl_joinStep_length qs (w ++ " " ++ q)
  rw [hEq] at h1
  simp only [String.length_append] at h1
  have hsp : " ".length = 1 := rfl
  omega

theorem concatGo_eq_spec (wt : Dict (List ℚ)) :
    ∀ (fuel : ℕ) (ws : List String), ws.length ≤ fuel →
      concatGo wt fuel ws =
        ((specPhrases wt ws).map Prod.fst, (specPhrases wt ws).map Prod.snd) := by
  intro fuel
  induction fuel with
  | zero =>
    intro ws hws
    have hnil : ws = [] := List.length_eq_zero.mp (Nat.le_zero.mp hws)
    subst hnil
    rfl
  | succ f ih =>
    intro ws hws
    match ws with
    | [] => rfl
    | [w] => rfl
    | w :: nx :: rest =>
      have htc := innerJoin_eq_takeChain wt (nx :: rest) w w (minKey wt w)
      have hrest_le : (takeChain (gapOK wt) w (nx :: rest)).2.length ≤ f := by
        have h1 := takeChain_rest_le (gapOK wt) (nx :: rest) w
        simp only [List.length_cons] at hws h1 ⊢
        omega
      have hchunk : chunkBy (gapOK wt) (w :: nx :: rest) =
          (w :: (takeChain (gapOK wt) w (nx :: rest)).1) ::
            chunkBy (gapOK wt) (takeChain (gapOK wt) w (nx :: rest)).2 := by
        rw [chunkBy]
        rw [show (w :: nx :: rest).length = (nx :: rest).length + 1 from rfl]
        simp only [chunkGo]
        congr 1
        apply chunkGo_fuel_irrel
        · have h1 := takeChain_rest_le (gapOK wt) (nx :: rest) w
          exact h1
        · exact Nat.le_refl _
      simp only [concatGo, htc]
      cases hp : (takeChain (gapOK wt) w (nx :: rest)).1 with
      | nil =>
        have hspec : specPhrases wt (w :: nx :: rest) =
            specPhrases wt (takeChain (gapOK wt) w (nx :: rest)).2 := by
          rw [specPhrases, hchunk, hp, List.filter_cons]
          norm_num
          rfl
        simp only [List.foldl_nil, ne_eq, not_true_eq_false, if_false, hspec]
        exact ih _ hrest_le
      | cons q qs =>
        have hne : (q :: qs).foldl (fun s y => s ++ " " ++ y) w ≠ w :=
          foldl_joinStep_ne w q qs
        have hspec : specPhrases wt (w :: nx :: rest) =
            (joinSpace (w :: q :: qs), minOverGroup wt (w :: q :: qs)) ::
              specPhrases wt (takeChain (gapOK wt) w (nx :: rest)).2 := by
          rw [specPhrases, hchunk, hp, List.filter_cons]
          have h2 : decide (2 ≤ (w :: q :: qs).length) = true := by
            simp [List.length_cons]
          rw [h2]
          simp only [if_true, List.map_cons]
          rfl
        simp only [ne_eq, hne, not_false_eq_true, if_true, hspec, List.map_cons]
        have htail := ih _ hrest_le
        rw [htail]
        rfl

/-- Claim C6: the phrase concatenation loop of `search_word_in_transcript`
equals the spec's greedy clustering: order the words, cluster greedily with
the advancing reference (a word joins exactly when its earliest time is
within 1000 ms of the most recently accepted word's earliest time), drop
one-word clusters, and emit each remaining cluster's space-joined text with
the minimum earliest time over its members as display time. -/
theorem search_C6 (wt : Dict (List ℚ)) (ws : List String) :
    concatLoop wt ws =
      ((specPhrases wt ws).map Prod.fst, (specPhrases wt ws).map Prod.snd) :=
  concatGo_eq_spec wt ws.length ws (Nat.le_refl _)

/-! ### Claim C7: gaps inside emitted phrases -/

theorem takeChain_chain (R : String → String → Bool) :
    ∀ (l : List String) (x : String),
      List.Chain (fun u v => R u v = true) x (takeChain R x l).1 := by
  intro l
  induction l with
  | nil => intro x; exact List.Chain.nil
  | cons y ys ih =>
    intro x
    cases hxy : R x y with
    | false =>
      simp only [takeChain, hxy, Bool.false_eq_true, if_false]
      exact List.Chain.nil
    | true =>
      simp only [takeChain, hxy, if_true]
      exact List.Chain.cons hxy (ih y)

theorem takeChain_stop (R : String → String → Bool) :
    ∀ (l : List String) (x v : String) (r' : List String),
      (takeChain R x l).2 = v :: r' →
      R ((takeChain R x l).1.getLastD x) v = false := by
  intro l
  induction l with
  | nil => intro x v r' h; simp [takeChain] at h
  | cons y ys ih =>
    intro x v r' h
    cases hxy : R x y with
    | false =>
      simp only [takeChain, hxy, Bool.false_eq_true, if_false] at h ⊢
      obtain ⟨rfl, rfl⟩ := List.cons.inj h
      simpa [List.getLastD] using hxy
    | true =>
      simp only [takeChain, hxy, if_true] at h ⊢
      rw [List.getLastD_cons]
      exact ih y v r' h

theorem getLastD_mem_cons' :
    ∀ (l : List String) (x : String), l.getLastD x ∈ x :: l := by
  intro l
  induction l with
  | nil => intro x; simp [List.getLastD]
  | cons q qs ih =>
    intro x
    rw [List.getLastD_cons]
    exact List.mem_cons_of_mem x (ih q)

theorem pairwise_le_getLastD (m : String → ℚ) :
    ∀ (p : List String) (x a : String),
      (x :: p).Pairwise (fun u v => m u ≤ m v) → a ∈ x :: p → m a ≤ m (p.getLastD x) := by
  intro p
  induction p with
  | nil =>
    intro x a _ ha
    rcases List.mem_singleton.mp ha with rfl
    exact le_refl _
  | cons q qs ih =>
    intro x a hp ha
    rw [List.getLastD_cons]
    rcases List.mem_cons.mp ha with rfl | ha'
    · exact (List.pairwise_cons.mp hp).1 _ (getLastD_mem_cons' qs q)
    · exact ih q a (List.pairwise_cons.mp hp).2 ha'

/-- Crossing a cluster boundary in a sorted word list costs more than the
threshold: if `a` is in the cluster opened at `x` and `b` is in the
remainder, their earliest times differ by more than 1000 ms. -/
theorem chunk_cross_gap (wt : Dict (List ℚ)) (x : String) (xs : List String)
    (hp : (x :: xs).Pairwise (fun u v => minKey wt u ≤ minKey wt v)) (a b : String)
    (hA : a ∈ x :: (takeChain (gapOK wt) x xs).1)
    (hB : b ∈ (takeChain (gapOK wt) x xs).2) :
    1000 < minKey wt b - minKey wt a := by
  obtain ⟨v, r', hr⟩ : ∃ v r', (takeChain (gapOK wt) x xs).2 = v :: r' := by
    cases hcase : (takeChain (gapOK wt) x xs).2 with
    | nil => rw [hcase] at hB; simp at hB
    | cons v r' => exact ⟨v, r', rfl⟩
  have hstop := takeChain_stop (gapOK wt) xs x v r' hr
  simp only [gapOK, decide_eq_false_iff_not] at hstop
  have hsplit : x :: xs =
      (x :: (takeChain (gapOK wt) x xs).1) ++ (takeChain (gapOK wt) x xs).2 := by
    rw [List.cons_append, takeChain_append]
  obtain ⟨hp1, hp2, hp3⟩ := List.pairwise_append.mp (hsplit ▸ hp)
  have h_a_last : minKey wt a ≤ minKey wt ((takeChain (gapOK wt) x xs).1.getLastD x) :=
    pairwise_le_getLastD (minKey wt) _ x a hp1 hA
  have hlast_mem : (takeChain (gapOK wt) x xs).1.getLastD x ∈
      x :: (takeChain (gapOK wt) x xs).1 := getLastD_mem_cons' _ x
  have h_last_v : minKey wt ((takeChain (gapOK wt) x xs).1.getLastD x) ≤ minKey wt v :=
    hp3 _ hlast_mem v (by rw [hr]; exact List.mem_cons_self _ _)
  have h_v_b : minKey wt v ≤ minKey wt b := by
    rw [hr] at hB hp2
    rcases List.mem_cons.mp hB with rfl | hb'
    · exact le_refl _
    · exact (List.pairwise_cons.mp hp2).1 b hb'
  have h1 : 1000 < minKey wt v - minKey wt ((takeChain (gapOK wt) x xs).1.getLastD x) := by
    by_contra hcon
    push_neg at hcon
    exact hstop (by rw [ratSub_eq, ratAbs_eq_abs, abs_of_nonneg (by linarith)]; exact hcon)
  linarith

theorem chunk_same (wt : Dict (List ℚ)) :
    ∀ (fuel : ℕ) (l : List String), l.length ≤ fuel →
      l.Pairwise (fun u v => minKey wt u ≤ minKey wt v) →
      ∀ a b, a ∈ l → b ∈ l → ratAbs (ratSub (minKey wt b) (minKey wt a)) ≤ 1000 →
        ∃ g ∈ chunkGo (gapOK wt) fuel l, a ∈ g ∧ b ∈ g := by
  intro fuel
  induction fuel with
  | zero =>
    intro l hl _ a b ha _ _
    have hnil : l = [] := List.length_eq_zero.mp (Nat.le_zero.mp hl)
    subst hnil
    simp at ha
  | succ f ih =>
    intro l hl hp a b ha hb hgap
    match l with
    | [] => simp at ha
    | x :: xs =>
      have hsplit : x :: xs =
          (x :: (takeChain (gapOK wt) x xs).1) ++ (takeChain (gapOK wt) x xs).2 := by
        rw [List.cons_append, takeChain_append]
      have hmem : ∀ c, c ∈ x :: xs →
          c ∈ x :: (takeChain (gapOK wt) x xs).1 ∨ c ∈ (takeChain (gapOK wt) x xs).2 := by
        intro c hc
        rw [hsplit] at hc
        exact List.mem_append.mp hc
      obtain ⟨hp1, hp2, hp3⟩ := List.pairwise_append.mp (hsplit ▸ hp)
      rcases hmem a ha with hA | hA <;> rcases hmem b hb with hB | hB
      · refine ⟨x :: (takeChain (gapOK wt) x xs).1, ?_, hA, hB⟩
        simp only [chunkGo]
        exact List.mem_cons_self _ _
      · exfalso
        rw [ratSub_eq, ratAbs_eq_abs] at hgap
        have hcross := chunk_cross_gap wt x xs hp a b hA hB
        have habs := le_abs_self (minKey wt b - minKey wt a)
        linarith
      · exfalso
        rw [ratSub_eq, ratAbs_eq_abs] at hgap
        have hcross := chunk_cross_gap wt x xs hp b a hB hA
        have habs := neg_le_abs (minKey wt b - minKey wt a)
        have hneg : -(minKey wt b - minKey wt a) = minKey wt a - minKey wt b := by ring
        linarith
      · have hlen : (takeChain (gapOK wt) x xs).2.length ≤ f := by
          have h1 := takeChain_rest_le (gapOK wt) xs x
          simp only [List.length_cons] at hl
          omega
        obtain ⟨g, hg, hag, hbg⟩ := ih _ hlen hp2 a b hA hB hgap
        refine ⟨g, ?_, hag, hbg⟩
        simp only [chunkGo]
        exact List.mem_cons_of_mem _ hg

theorem chunkGo_chain (wt : Dict (List ℚ)) :
    ∀ (fuel : ℕ) (l : List String), l.length ≤ fuel →
      ∀ g ∈ chunkGo (gapOK wt) fuel l, ∃ x p, g = x :: p ∧
        List.Chain (fun u v => ratAbs (ratSub (minKey wt v) (minKey wt u)) ≤ 1000) x p := by
  intro fuel
  induction fuel with
  | zero =>
    intro l hl g hg
    have hnil : l = [] := List.length_eq_zero.mp (Nat.le_zero.mp hl)
    subst hnil
    simp [chunkGo] at hg
  | succ f ih =>
    intro l hl g hg
    match l with
    | [] => simp [chunkGo] at hg
    | x :: xs =>
      simp only [chunkGo] at hg
      rcases List.mem_cons.mp hg with rfl | hg'
      · refine ⟨x, _, rfl, ?_⟩
        refine List.Chain.imp ?_ (takeChain_chain (gapOK wt) xs x)
        intro u v huv
        exact of_decide_eq_true huv
      · have hlen : (takeChain (gapOK wt) x xs).2.length ≤ f := by
          have h1 := takeChain_rest_le (gapOK wt) xs x
          simp only [List.length_cons] at hl
          omega
        exact ih _ hlen g hg'

/-- Counterexample to claim C7 as stated: with earliest times 0, 1000 and
2000 ms the three words are chained into the single phrase "aa bb cc"
(each consecutive gap is exactly 1000 ms), yet the pair aa, cc inside that
emitted phrase is 2000 ms apart — more than the threshold. -/
theorem search_C7_counterexample :
    concatLoop wtC7 ["aa", "bb", "cc"] = (["aa bb cc"], [0]) ∧
    minKey wtC7 "aa" = 0 ∧ minKey wtC7 "cc" = 2000 ∧
    ¬ (ratAbs (ratSub (minKey wtC7 "cc") (minKey wtC7 "aa")) ≤ 1000) := by
  refine ⟨by decide, by decide, by decide, by decide⟩

/-- Claim C7 (amended): within a cluster, consecutive words (in earliest-time
order) are within the 1000 ms threshold — any two words of an emitted phrase
are linked by a chain of within-threshold gaps, though the endpoints may be
further apart; and any two distinct words of the sorted word list whose
earliest times are within the threshold do land in the same cluster, which
is emitted by the concatenation loop as a phrase containing both. -/
theorem search_C7_amended (wt : Dict (List ℚ)) (ws : List String)
    (hs : ws.Pairwise (fun u v => minKey wt u ≤ minKey wt v)) :
    (∀ g ∈ chunkBy (gapOK wt) ws, ∃ x p, g = x :: p ∧
      List.Chain (fun u v => ratAbs (ratSub (minKey wt v) (minKey wt u)) ≤ 1000) x p) ∧
    (∀ a b, a ∈ ws → b ∈ ws → a ≠ b → ratAbs (ratSub (minKey wt b) (minKey wt a)) ≤ 1000 →
      ∃ g ∈ chunkBy (gapOK wt) ws, a ∈ g ∧ b ∈ g ∧ 2 ≤ g.length ∧
        joinSpace g ∈ (concatLoop wt ws).1) := by
  constructor
  · intro g hg
    exact chunkGo_chain wt ws.length ws (Nat.le_refl _) g hg
  · intro a b ha hb hne hgap
    obtain ⟨g, hg, hag, hbg⟩ :=
      chunk_same wt ws.length ws (Nat.le_refl _) hs a b ha hb hgap
    have hlen : 2 ≤ g.length := by
      cases g with
      | nil => simp at hag
      | cons z zs =>
        cases zs with
        | nil =>
          exfalso
          rcases List.mem_singleton.mp hag with rfl
          rcases List.mem_singleton.mp hbg with rfl
          exact hne rfl
        | cons z2 zs2 =>
          simp only [List.length_cons]
          omega
    refine ⟨g, hg, hag, hbg, hlen, ?_⟩
    have hcl := concatGo_eq_spec wt ws.length ws (Nat.le_refl _)
    rw [show concatLoop wt ws = concatGo wt ws.length ws from rfl, hcl]
    show joinSpace g ∈ (specPhrases wt ws).map Prod.fst
    rw [specPhrases, List.map_map]
    refine List.mem_map.mpr ⟨g, ?_, rfl⟩
    exact List.mem_filter.mpr ⟨hg, decide_eq_true hlen⟩

/-- Witness for the amended C7: with earliest times 0 and 800 the two words
end in one emitted phrase. -/
theorem search_C7_witness :
    ∃ g ∈ chunkBy (gapOK [("aa", [(0 : ℚ)]), ("bb", [800])]) ["aa", "bb"],
      "aa" ∈ g ∧ "bb" ∈ g ∧ 2 ≤ g.length ∧
        joinSpace g ∈ (concatLoop [("aa", [(0 : ℚ)]), ("bb", [800])] ["aa", "bb"]).1 :=
  (search_C7_amended [("aa", [(0 : ℚ)]), ("bb", [800])] ["aa", "bb"] (by decide)).2
    "aa" "bb" (by decide) (by decide) (by decide) (by decide)

/-! ### Dictionary lemmas for the global accumulation (claims C1 and C10) -/

theorem dictLookup_append_single {V : Type} :
    ∀ (d : Dict V) (k : String) (v : V) (q : String),
      dictLookup (d ++ [(k, v)]) q =
        match dictLookup d q with
        | some w => some w
        | none => if k = q then some v else none := by
  intro d
  induction d with
  | nil => intro k v q; rfl
  | cons e rest ih =>
    intro k v q
    obtain ⟨ke, ve⟩ := e
    by_cases hq : ke = q
    · simp [dictLookup, hq]
    · simp only [List.cons_append, dictLookup, if_neg hq]
      exact ih k v q

theorem dictExtend_lookup {V : Type} :
    ∀ (d : Dict (List V)) (k : String) (vs : List V) (q : String),
      dictLookup (dictExtend d k vs) q =
        if k = q then some ((dictLookup d q).getD [] ++ vs) else dictLookup d q := by
  intro d
  induction d with
  | nil =>
    intro k v q
    by_cases hq : k = q
    · simp [dictExtend, dictLookup, hq]
    · simp [dictExtend, dictLookup, hq]
  | cons e rest ih =>
    intro k v q
    obtain ⟨ke, ve⟩ := e
    by_cases hk : ke = k
    · subst hk
      by_cases hq : ke = q
      · simp [dictExtend, dictLookup, hq]
      · simp [dictExtend, dictLookup, hq]
    · by_cases hq : ke = q
      · subst hq
        have hk' : ¬ k = ke := fun h => hk h.symm
        simp [dictExtend, dictLookup, hk, hk']
      · simp only [dictExtend, if_neg hk, dictLookup, if_neg hq]
        exact ih k v q

theorem dictLookup_none_iff {V : Type} :
    ∀ (d : Dict V) (q : String), dictLookup d q = none ↔ q ∉ dictKeys d := by
  intro d
  induction d with
  | nil => intro q; simp [dictLookup, dictKeys]
  | cons e rest ih =>
    intro q
    obtain ⟨ke, ve⟩ := e
    by_cases hq : ke = q
    · simp [dictLookup, dictKeys, hq]
    · simp only [dictLookup, if_neg hq, dictKeys, List.map_cons, List.mem_cons]
      rw [ih q]
      constructor
      · intro hn hc
        rcases hc with hc | hc
        · exact hq hc.symm
        · exact hn hc
      · intro hn hc
        exact hn (Or.inr hc)

theorem dictLookup_some_mem {V : Type} :
    ∀ (d : Dict V) (q : String) (v : V), dictLookup d q = some v → (q, v) ∈ d := by
  intro d
  induction d with
  | nil => intro q v h; cases h
  | cons e rest ih =>
    intro q v h
    obtain ⟨ke, ve⟩ := e
    by_cases hq : ke = q
    · subst hq
      rw [dictLookup, if_pos rfl] at h
      rw [← Option.some.inj h]
      exact List.mem_cons_self _ _
    · rw [dictLookup, if_neg hq] at h
      exact List.mem_cons_of_mem _ (ih q v h)

theorem mem_keys_dictAppend {V : Type} :
    ∀ (d : Dict (List V)) (k : String) (v : V) (q : String),
      q ∈ dictKeys (dictAppend d k v) → q ∈ dictKeys d ∨ q = k := by
  intro d
  induction d with
  | nil =>
    intro k v q hq
    simp [dictAppend, dictKeys] at hq
    exact Or.inr hq
  | cons e rest ih =>
    intro k v q hq
    obtain ⟨ke, ve⟩ := e
    by_cases hk : ke = k
    · rw [dictAppend, if_pos hk] at hq
      simp only [dictKeys, List.map_cons, List.mem_cons] at hq ⊢
      exact Or.inl hq
    · rw [dictAppend, if_neg hk] at hq
      simp only [dictKeys, List.map_cons, List.mem_cons] at hq ⊢
      rcases hq with hq | hq
      · exact Or.inl (Or.inl hq)
      · rcases ih k v q hq with h | h
        · exact Or.inl (Or.inr h)
        · exact Or.inr h

theorem dictAppend_keys_eq {V : Type} :
    ∀ (d : Dict (List V)) (k : String) (v : V),
      dictKeys (dictAppend d k v) =
        if k ∈ dictKeys d then dictKeys d else dictKeys d ++ [k] := by
  intro d
  induction d with
  | nil => intro k v; simp [dictAppend, dictKeys]
  | cons e rest ih =>
    intro k v
    obtain ⟨ke, ve⟩ := e
    by_cases hk : ke = k
    · subst hk
      rw [dictAppend, if_pos rfl]
      have hmem : ke ∈ dictKeys ((ke, ve) :: rest) := by
        simp [dictKeys]
      rw [if_pos hmem]
      simp [dictKeys]
    · rw [dictAppend, if_neg hk]
      have hkeys : dictKeys ((ke, ve) :: dictAppend rest k v) =
          ke :: dictKeys (dictAppend rest k v) := rfl
      rw [hkeys, ih k v]
      by_cases hmem : k ∈ dictKeys rest
      · rw [if_pos hmem,
          if_pos (show k ∈ dictKeys ((ke, ve) :: rest) from List.mem_cons_of_mem _ hmem)]
        rfl
      · rw [if_neg hmem, if_neg ?_]
        · rfl
        · simp only [dictKeys, List.map_cons, List.mem_cons]
          rintro (h | h)
          · exact hk h.symm
          · exact hmem h

theorem dictAppend_keys_nodup {V : Type} (d : Dict (List V)) (k : String) (v : V)
    (h : (dictKeys d).Nodup) : (dictKeys (dictAppend d k v)).Nodup := by
  rw [dictAppend_keys_eq]
  by_cases hmem : k ∈ dictKeys d
  · rw [if_pos hmem]; exact h
  · rw [if_neg hmem]
    simp [List.nodup_append, h, hmem]

theorem dictAppend_values_ne_nil {V : Type} :
    ∀ (d : Dict (List V)) (k : String) (v : V),
      (∀ e ∈ d, e.2 ≠ []) → ∀ e ∈ dictAppend d k v, e.2 ≠ [] := by
  intro d
  induction d with
  | nil =>
    intro k v _ e he
    simp [dictAppend] at he
    subst he
    simp
  | cons ent rest ih =>
    intro k v hall e he
    obtain ⟨ke, ve⟩ := ent
    by_cases hk : ke = k
    · rw [dictAppend, if_pos hk] at he
      rcases List.mem_cons.mp he with rfl | hmem
      · simp
      · exact hall e (List.mem_cons_of_mem _ hmem)
    · rw [dictAppend, if_neg hk] at he
      rcases List.mem_cons.mp he with rfl | hmem
      · exact hall _ (List.mem_cons_self _ _)
      · exact ih k v (fun x hx => hall x (List.mem_cons_of_mem _ hx)) e hmem

theorem foldl_dictAppend_keys_mem {α V : Type} (key : α → String) (val : α → V) :
    ∀ (l : List α) (d : Dict (List V)) (q : String),
      q ∈ dictKeys (l.foldl (fun a x => dictAppend a (key x) (val x)) d) →
      q ∈ dictKeys d ∨ ∃ x ∈ l, key x = q := by
  intro l
  induction l with
  | nil => intro d q hq; exact Or.inl hq
  | cons x xs ih =>
    intro d q hq
    rw [List.foldl_cons] at hq
    rcases ih (dictAppend d (key x) (val x)) q hq with h | ⟨y, hy, hky⟩
    · rcases mem_keys_dictAppend d (key x) (val x) q h with h' | h'
      · exact Or.inl h'
      · exact Or.inr ⟨x, List.mem_cons_self _ _, h'.symm⟩
    · exact Or.inr ⟨y, List.mem_cons_of_mem _ hy, hky⟩

theorem foldl_dictAppend_keys_nodup {α V : Type} (key : α → String) (val : α → V) :
    ∀ (l : List α) (d : Dict (List V)), (dictKeys d).Nodup →
      (dictKeys (l.foldl (fun a x => dictAppend a (key x) (val x)) d)).Nodup := by
  intro l
  induction l with
  | nil => intro d h; exact h
  | cons x xs ih =>
    intro d h
    rw [List.foldl_cons]
    exact ih _ (dictAppend_keys_nodup d (key x) (val x) h)

theorem foldl_dictAppend_values_ne_nil {α V : Type} (key : α → String) (val : α → V) :
    ∀ (l : List α) (d : Dict (List V)), (∀ e ∈ d, e.2 ≠ []) →
      ∀ e ∈ l.foldl (fun a x => dictAppend a (key x) (val x)) d, e.2 ≠ [] := by
  intro l
  induction l with
  | nil => intro d h; exact h
  | cons x xs ih =>
    intro d h
    rw [List.foldl_cons]
    exact ih _ (dictAppend_values_ne_nil d (key x) (val x) h)

theorem foldl_dictExtend_lookup :
    ∀ (r : Dict (List String)), (dictKeys r).Nodup →
      ∀ (acc : Dict (List String)) (q : String),
        dictLookup (r.foldl (fun a e => dictExtend a e.1 e.2) acc) q =
          match dictLookup r q with
          | some vs => some ((dictLookup acc q).getD [] ++ vs)
          | none => dictLookup acc q := by
  intro r
  induction r with
  | nil => intro _ acc q; rfl
  | cons e rest ih =>
    intro hnd acc q
    obtain ⟨ke, ve⟩ := e
    have hnd' : (dictKeys rest).Nodup := by
      simp only [dictKeys, List.map_cons, List.nodup_cons] at hnd
      exact hnd.2
    have hke : ke ∉ dictKeys rest := by
      simp only [dictKeys, List.map_cons, List.nodup_cons] at hnd
      exact hnd.1
    rw [List.foldl_cons, ih hnd' (dictExtend acc ke ve) q]
    by_cases hq : ke = q
    · subst hq
      have hrest : dictLookup rest ke = none := (dictLookup_none_iff rest ke).mpr hke
      rw [hrest, dictLookup, if_pos rfl, dictExtend_lookup, if_pos rfl]
    · rw [dictLookup, if_neg hq, dictExtend_lookup, if_neg hq]

theorem foldl_phraseMerge_lookup :
    ∀ (pairs : List (String × String)) (acc : Dict (List String)) (q : String),
      dictLookup
          (pairs.foldl (fun a e => if dictHas a e.1 then a else a ++ [(e.1, [e.2])]) acc) q =
        match dictLookup acc q with
        | some v => some v
        | none => (dictLookup pairs q).map (fun tm => [tm]) := by
  intro pairs
  induction pairs with
  | nil =>
    intro acc q
    cases h : dictLookup acc q <;> simp [h, dictLookup]
  | cons e rest ih =>
    intro acc q
    obtain ⟨ke, tm⟩ := e
    rw [List.foldl_cons]
    by_cases hk : dictHas acc ke
    · rw [if_pos hk, ih acc q]
      cases hacc : dictLookup acc q with
      | some v => rfl
      | none =>
        by_cases hq : ke = q
        · subst hq
          rw [dictHas, hacc] at hk
          cases hk
        · rw [dictLookup, if_neg hq]
    · rw [if_neg hk, ih (acc ++ [(ke, [tm])]) q, dictLookup_append_single]
      cases hacc : dictLookup acc q with
      | some v => rfl
      | none =>
        by_cases hq : ke = q
        · subst hq
          simp [hacc, dictLookup]
        · simp [hacc, dictLookup, hq]

/-! ### Word keys carry no whitespace; phrase keys always do -/

theorem splitWSAux_space :
    ∀ (cs : List Char) (acc : List Char), (∀ c ∈ acc, c.isWhitespace = false) →
      ∀ s ∈ splitWSAux cs acc, hasSpace s = false := by
  intro cs
  induction cs with
  | nil =>
    intro acc hacc s hs
    by_cases he : acc.isEmpty
    · rw [splitWSAux, if_pos he] at hs
      simp at hs
    · rw [splitWSAux, if_neg he] at hs
      rcases List.mem_singleton.mp hs with rfl
      rw [hasSpace]
      rw [show (String.mk acc.reverse).data = acc.reverse from rfl]
      rw [List.any_eq_false]
      intro c hc
      simp only [Bool.not_eq_true]
      exact hacc c (List.mem_reverse.mp hc)
  | cons c cs' ih =>
    intro acc hacc s hs
    by_cases hc : c.isWhitespace
    · rw [splitWSAux, if_pos hc] at hs
      by_cases he : acc.isEmpty
      · rw [if_pos he] at hs
        exact ih [] (by simp) s hs
      · rw [if_neg he] at hs
        rcases List.mem_cons.mp hs with rfl | hs'
        · rw [hasSpace]
          rw [show (String.mk acc.reverse).data = acc.reverse from rfl]
          rw [List.any_eq_false]
          intro d hd
          simp only [Bool.not_eq_true]
          exact hacc d (List.mem_reverse.mp hd)
        · exact ih [] (by simp) s hs'
    · rw [splitWSAux, if_neg hc] at hs
      refine ih (c :: acc) ?_ s hs
      intro d hd
      rcases List.mem_cons.mp hd with rfl | hd'
      · exact Bool.not_eq_true _ ▸ (by simpa using hc)
      · exact hacc d hd'

theorem tokenizeLower_space (t : String) : ∀ s ∈ tokenizeLower t, hasSpace s = false :=
  splitWSAux_space _ [] (by simp)

theorem matchToken_some_mem (sim : String → String → ℚ) (sw : List String) (fuzzy : Bool)
    (cutoff : ℚ) (w k : String) (h : matchToken sim sw fuzzy cutoff w = some k) :
    k = w ∨ k ∈ sw := by
  rw [matchToken] at h
  by_cases hw : w ∈ sw
  · rw [if_pos hw] at h
    exact Or.inl (Option.some.inj h).symm
  · rw [if_neg hw] at h
    cases hf : fuzzy with
    | false => rw [hf] at h; simp at h
    | true =>
      rw [hf] at h
      simp only [if_true] at h
      exact Or.inr (get_close_match_some sim w sw cutoff k h).1

theorem hasSpace_append (a b : String) :
    hasSpace (a ++ b) = (hasSpace a || hasSpace b) := by
  rw [hasSpace, hasSpace, hasSpace, String.data_append, List.any_append]

theorem hasSpace_join_sep (a b : String) : hasSpace (a ++ " " ++ b) = true := by
  rw [hasSpace_append, hasSpace_append]
  have h : hasSpace " " = true := rfl
  rw [h]
  simp

theorem hasSpace_foldl_join :
    ∀ (l : List String) (s : String), hasSpace s = true →
      hasSpace (l.foldl (fun a x => a ++ " " ++ x) s) = true := by
  intro l
  induction l with
  | nil => intro s h; exact h
  | cons x xs ih =>
    intro s h
    rw [List.foldl_cons]
    exact ih (s ++ " " ++ x) (hasSpace_join_sep s x)

theorem hasSpace_joinSpace_two (x q : String) (rest : List String) :
    hasSpace (joinSpace (x :: q :: rest)) = true := by
  show hasSpace ((q :: rest).foldl (fun a y => a ++ " " ++ y) x) = true
  rw [List.foldl_cons]
  exact hasSpace_foldl_join rest (x ++ " " ++ q) (hasSpace_join_sep x q)

/-! ### Per-window facts used by the `process` merge (claims C1 and C10) -/

theorem windowResult_keys_space (sim : String → String → ℚ) (sw : List String)
    (fuzzy : Bool) (cutoff : ℚ) (i : ℕ) (t : String)
    (hsw : ∀ w ∈ sw, hasSpace (strLower w) = false) :
    ∀ q ∈ dictKeys (windowResult sim sw fuzzy cutoff i t).1, hasSpace q = false := by
  intro q hq
  have hq' : q ∈ dictKeys (searchTimestamps sim t sw (ratMul (i : ℚ) (ratSub 15000 3000))
      15000 fuzzy cutoff) := hq
  rw [searchTimestamps] at hq'
  rcases foldl_dictAppend_keys_mem _ _ _ [] q hq' with h0 | ⟨e, he, hkey⟩
  · simp [dictKeys] at h0
  · subst hkey
    obtain ⟨⟨w, hw1, hw2⟩, _⟩ := findOccs_mem sim (sw.map strLower) fuzzy cutoff
      (ratMul (i : ℚ) (ratSub 15000 3000)) 15000 (tokenizeLower t) e he
    rcases matchToken_some_mem sim (sw.map strLower) fuzzy cutoff w e.2.1 hw2 with h | h
    · rw [h]
      have hwmem : w ∈ tokenizeLower t :=
        (mem_enumFrom_facts (tokenizeLower t) 0 (e.1, w)
          (by simpa [List.enum] using hw1)).2.2
      exact tokenizeLower_space t w hwmem
    · obtain ⟨w0, hw0, hw0e⟩ := List.mem_map.mp h
      rw [← hw0e]
      exact hsw w0 hw0

theorem windowResult_keys_nodup (sim : String → String → ℚ) (sw : List String)
    (fuzzy : Bool) (cutoff : ℚ) (i : ℕ) (t : String) :
    (dictKeys (windowResult sim sw fuzzy cutoff i t).1).Nodup := by
  show (dictKeys (searchTimestamps sim t sw (ratMul (i : ℚ) (ratSub 15000 3000))
      15000 fuzzy cutoff)).Nodup
  rw [searchTimestamps]
  exact foldl_dictAppend_keys_nodup _ _ _ [] (by simp [dictKeys])

theorem windowResult_lookup_ne_nil (sim : String → String → ℚ) (sw : List String)
    (fuzzy : Bool) (cutoff : ℚ) (i : ℕ) (t : String) (w : String) (vs : List String)
    (h : dictLookup (windowResult sim sw fuzzy cutoff i t).1 w = some vs) : vs ≠ [] := by
  have h' : dictLookup (searchTimestamps sim t sw (ratMul (i : ℚ) (ratSub 15000 3000))
      15000 fuzzy cutoff) w = some vs := h
  rw [searchTimestamps] at h'
  have hmem := dictLookup_some_mem _ _ _ h'
  exact foldl_dictAppend_values_ne_nil _ _ _ [] (by simp) (w, vs) hmem

theorem windowResult_phrases_space (sim : String → String → ℚ) (sw : List String)
    (fuzzy : Bool) (cutoff : ℚ) (i : ℕ) (t : String) :
    ∀ p ∈ (windowResult sim sw fuzzy cutoff i t).2.1, hasSpace p = true := by
  intro p hp
  have hp' : p ∈ (concatLoop
      (searchWordTimes sim t sw (ratMul (i : ℚ) (ratSub 15000 3000)) 15000 fuzzy cutoff)
      (searchSorted sim t sw (ratMul (i : ℚ) (ratSub 15000 3000)) 15000 fuzzy cutoff)).1 := hp
  rw [show concatLoop
      (searchWordTimes sim t sw (ratMul (i : ℚ) (ratSub 15000 3000)) 15000 fuzzy cutoff)
      (searchSorted sim t sw (ratMul (i : ℚ) (ratSub 15000 3000)) 15000 fuzzy cutoff) =
      concatGo (searchWordTimes sim t sw (ratMul (i : ℚ) (ratSub 15000 3000)) 15000 fuzzy cutoff)
        (searchSorted sim t sw (ratMul (i : ℚ) (ratSub 15000 3000)) 15000 fuzzy cutoff).length
        (searchSorted sim t sw (ratMul (i : ℚ) (ratSub 15000 3000)) 15000 fuzzy cutoff)
      from rfl, concatGo_eq_spec _ _ _ (Nat.le_refl _)] at hp'
  have hp2 : p ∈ (specPhrases
      (searchWordTimes sim t sw (ratMul (i : ℚ) (ratSub 15000 3000)) 15000 fuzzy cutoff)
      (searchSorted sim t sw (ratMul (i : ℚ) (ratSub 15000 3000)) 15000 fuzzy cutoff)).map
      Prod.fst := hp'
  rw [specPhrases, List.map_map] at hp2
  obtain ⟨g, hgmem, hge⟩ := List.mem_map.mp hp2
  have hlen : 2 ≤ g.length := of_decide_eq_true (List.mem_filter.mp hgmem).2
  match g, hlen with
  | x :: q :: rest, _ =>
    rw [← hge]
    exact hasSpace_joinSpace_two x q rest

/-! ### Claims C1 and C10: the global merge in `process` -/

theorem stepWindow_lookup_word (sim : String → String → ℚ) (sw : List String)
    (fuzzy : Bool) (cutoff : ℚ) (acc : Dict (List String)) (i : ℕ) (t : String) (q : String)
    (hsw : ∀ w ∈ sw, hasSpace (strLower w) = false) (hq : hasSpace q = false) :
    dictLookup (stepWindow sim sw fuzzy cutoff acc i t) q =
      match dictLookup (windowResult sim sw fuzzy cutoff i t).1 q with
      | some vs => some ((dictLookup acc q).getD [] ++ vs)
      | none => dictLookup acc q := by
  rw [stepWindow]
  rw [foldl_phraseMerge_lookup]
  have hpairs : dictLookup ((windowResult sim sw fuzzy cutoff i t).2.1.zip
      (windowResult sim sw fuzzy cutoff i t).2.2) q = none := by
    rw [dictLookup_none_iff]
    intro hqmem
    obtain ⟨e, he, hfe⟩ := List.mem_map.mp hqmem
    obtain ⟨ea, eb⟩ := e
    have hcw := (List.mem_zip he).1
    have := windowResult_phrases_space sim sw fuzzy cutoff i t ea hcw
    rw [← hfe] at hq
    rw [hq] at this
    cases this
  rw [hpairs]
  rw [foldl_dictExtend_lookup (windowResult sim sw fuzzy cutoff i t).1
    (windowResult_keys_nodup sim sw fuzzy cutoff i t) acc q]
  cases h : dictLookup (windowResult sim sw fuzzy cutoff i t).1 q with
  | some vs => rfl
  | none => cases h2 : dictLookup acc q <;> rfl

theorem stepWindow_lookup_phrase (sim : String → String → ℚ) (sw : List String)
    (fuzzy : Bool) (cutoff : ℚ) (acc : Dict (List String)) (i : ℕ) (t : String) (q : String)
    (hsw : ∀ w ∈ sw, hasSpace (strLower w) = false) (hq : hasSpace q = true) :
    dictLookup (stepWindow sim sw fuzzy cutoff acc i t) q =
      match dictLookup acc q with
      | some v => some v
      | none =>
        (dictLookup ((windowResult sim sw fuzzy cutoff i t).2.1.zip
          (windowResult sim sw fuzzy cutoff i t).2.2) q).map (fun tm => [tm]) := by
  rw [stepWindow]
  rw [foldl_phraseMerge_lookup]
  have hwint : dictLookup (windowResult sim sw fuzzy cutoff i t).1 q = none := by
    rw [dictLookup_none_iff]
    intro hmem
    have := windowResult_keys_space sim sw fuzzy cutoff i t hsw q hmem
    rw [hq] at this
    cases this
  rw [foldl_dictExtend_lookup (windowResult sim sw fuzzy cutoff i t).1
    (windowResult_keys_nodup sim sw fuzzy cutoff i t) acc q, hwint]

theorem processGo_lookup_phrase (sim : String → String → ℚ) (sw : List String)
    (fuzzy : Bool) (cutoff : ℚ)
    (hsw : ∀ w ∈ sw, hasSpace (strLower w) = false) :
    ∀ (ts : List String) (i : ℕ) (acc : Dict (List String)) (p : String),
      hasSpace p = true →
      dictLookup (processGo sim sw fuzzy cutoff i acc ts) p =
        match dictLookup acc p with
        | some v => some v
        | none => (firstPhraseTime sim sw fuzzy cutoff i ts p).map (fun tm => [tm]) := by
  intro ts
  induction ts with
  | nil =>
    intro i acc p _
    cases h : dictLookup acc p <;> simp [processGo, firstPhraseTime, h]
  | cons t ts' ih =>
    intro i acc p hp
    rw [show processGo sim sw fuzzy cutoff i acc (t :: ts') =
      processGo sim sw fuzzy cutoff (i + 1) (stepWindow sim sw fuzzy cutoff acc i t) ts'
      from rfl]
    rw [ih (i + 1) (stepWindow sim sw fuzzy cutoff acc i t) p hp]
    rw [stepWindow_lookup_phrase sim sw fuzzy cutoff acc i t p hsw hp]
    cases hacc : dictLookup acc p with
    | some v => rfl
    | none =>
      cases hz : dictLookup ((windowResult sim sw fuzzy cutoff i t).2.1.zip
          (windowResult sim sw fuzzy cutoff i t).2.2) p with
      | some tm => simp [firstPhraseTime, hz]
      | none => simp [firstPhraseTime, hz]

theorem processGo_lookup_word (sim : String → String → ℚ) (sw : List String)
    (fuzzy : Bool) (cutoff : ℚ)
    (hsw : ∀ w ∈ sw, hasSpace (strLower w) = false) :
    ∀ (ts : List String) (i : ℕ) (acc : Dict (List String)) (w : String),
      hasSpace w = false →
      dictLookup (processGo sim sw fuzzy cutoff i acc ts) w =
        match dictLookup acc w with
        | some v => some (v ++ wordListsFrom sim sw fuzzy cutoff i ts w)
        | none =>
          if wordListsFrom sim sw fuzzy cutoff i ts w = [] then none
          else some (wordListsFrom sim sw fuzzy cutoff i ts w) := by
  intro ts
  induction ts with
  | nil =>
    intro i acc w _
    cases h : dictLookup acc w <;> simp [processGo, wordListsFrom, h]
  | cons t ts' ih =>
    intro i acc w hw
    rw [show processGo sim sw fuzzy cutoff i acc (t :: ts') =
      processGo sim sw fuzzy cutoff (i + 1) (stepWindow sim sw fuzzy cutoff acc i t) ts'
      from rfl]
    rw [ih (i + 1) (stepWindow sim sw fuzzy cutoff acc i t) w hw]
    rw [stepWindow_lookup_word sim sw fuzzy cutoff acc i t w hsw hw]
    rw [show wordListsFrom sim sw fuzzy cutoff i (t :: ts') w =
      (dictLookup (windowResult sim sw fuzzy cutoff i t).1 w).getD [] ++
        wordListsFrom sim sw fuzzy cutoff (i + 1) ts' w from rfl]
    cases hwint : dictLookup (windowResult sim sw fuzzy cutoff i t).1 w with
    | some vs =>
      have hvs : vs ≠ [] := windowResult_lookup_ne_nil sim sw fuzzy cutoff i t w vs hwint
      cases hacc : dictLookup acc w with
      | some v => simp [List.append_assoc]
      | none =>
        have hne : vs ++ wordListsFrom sim sw fuzzy cutoff (i + 1) ts' w ≠ [] := by
          intro hc
          exact hvs (List.append_eq_nil.mp hc).1
        simp [if_neg hne]
        intro hc
        exact absurd hc hvs
    | none =>
      cases hacc : dictLookup acc w with
      | some v => simp
      | none => simp

/-- Claim C10: merging per-window results into the global map accumulates word
keys — a word's final list is the concatenation, in window order, of its
per-window display-time lists — while a concatenated phrase key is written at
most once: its final entry is the singleton display time recorded by the
earliest window that produced that phrase text, and later windows' phrase
times are discarded.  (Word keys never contain whitespace; phrase keys always
do, so the two regimes never collide — hence the hypothesis that the
lower-cased search words contain no whitespace, which holds for terms
produced by `search_string.split()`.) -/
theorem process_C10 (sim : String → String → ℚ) (sw : List String) (fuzzy : Bool)
    (cutoff : ℚ) (transcripts : List String)
    (hsw : ∀ w ∈ sw, hasSpace (strLower w) = false) :
    (∀ w, hasSpace w = false →
      dictLookup (process_loop sim sw fuzzy cutoff transcripts) w =
        (if wordListsFrom sim sw fuzzy cutoff 0 transcripts w = [] then none
         else some (wordListsFrom sim sw fuzzy cutoff 0 transcripts w))) ∧
    (∀ p, hasSpace p = true →
      dictLookup (process_loop sim sw fuzzy cutoff transcripts) p =
        (firstPhraseTime sim sw fuzzy cutoff 0 transcripts p).map (fun tm => [tm])) := by
  constructor
  · intro w hw
    rw [process_loop, processGo_lookup_word sim sw fuzzy cutoff hsw transcripts 0 [] w hw]
    rfl
  · intro p hp
    rw [process_loop, processGo_lookup_phrase sim sw fuzzy cutoff hsw transcripts 0 [] p hp]
    rfl

theorem firstPhraseTime_some (sim : String → String → ℚ) (sw : List String) (fuzzy : Bool)
    (cutoff : ℚ) :
    ∀ (ts : List String) (i : ℕ) (p tm : String),
      firstPhraseTime sim sw fuzzy cutoff i ts p = some tm →
      ∃ j t, (j, t) ∈ ts.enumFrom i ∧ p ∈ (windowResult sim sw fuzzy cutoff j t).2.1 := by
  intro ts
  induction ts with
  | nil => intro i p tm h; simp [firstPhraseTime] at h
  | cons t ts' ih =>
    intro i p tm h
    cases hz : dictLookup ((windowResult sim sw fuzzy cutoff i t).2.1.zip
        (windowResult sim sw fuzzy cutoff i t).2.2) p with
    | some v =>
      refine ⟨i, t, ?_, ?_⟩
      · rw [List.enumFrom_cons]
        exact List.mem_cons_self _ _
      · have hmem := dictLookup_some_mem _ _ _ hz
        exact (List.mem_zip hmem).1
    | none =>
      rw [firstPhraseTime, hz] at h
      obtain ⟨j, t', hj, hp'⟩ := ih (i + 1) p tm h
      refine ⟨j, t', ?_, hp'⟩
      rw [List.enumFrom_cons]
      exact List.mem_cons_of_mem _ hj

/-- Claim C1 (amended): phrase assembly runs per window, not once at the end —
every phrase key of the final map was emitted by the concatenation loop of a
single window (duplicates keep the earliest window's time); occurrences from
different windows are never clustered together. -/
theorem process_C1_amended (sim : String → String → ℚ) (sw : List String) (fuzzy : Bool)
    (cutoff : ℚ) (transcripts : List String)
    (hsw : ∀ w ∈ sw, hasSpace (strLower w) = false) :
    ∀ p v, hasSpace p = true →
      dictLookup (process_loop sim sw fuzzy cutoff transcripts) p = some v →
      ∃ i t, (i, t) ∈ transcripts.enum ∧
        p ∈ (windowResult sim sw fuzzy cutoff i t).2.1 := by
  intro p v hp hv
  rw [process_loop,
    processGo_lookup_phrase sim sw fuzzy cutoff hsw transcripts 0 [] p hp] at hv
  have hv' : (firstPhraseTime sim sw fuzzy cutoff 0 transcripts p).map
      (fun tm => [tm]) = some v := hv
  obtain ⟨tm, hft, _⟩ := Option.map_eq_some'.mp hv'
  obtain ⟨j, t, hj, hp'⟩ :=
    firstPhraseTime_some sim sw fuzzy cutoff transcripts 0 p tm hft
  exact ⟨j, t, by simpa [List.enum] using hj, hp'⟩

/-- Counterexample to claim C1 as stated: the words alpha (detected only in
window 0, estimated at 12000 ms) and beta (detected only in window 1, also
estimated at 12000 ms) have earliest occurrence times over the whole
recording within the 1000 ms gap threshold, yet the run emits no phrase at
all — every key of the final map is a plain word key (no whitespace), because
clustering happens inside each window separately. -/
theorem process_C1_counterexample :
    process_loop simZero ["alpha", "beta"] false (mkRat 4 5) [cxT0, cxT1] =
      [("alpha", ["00:00:12"]), ("beta", ["00:00:12"])] ∧
    minKey (searchWordTimes simZero cxT0 ["alpha", "beta"]
      (ratMul ((0 : ℕ) : ℚ) (ratSub 15000 3000)) 15000 false (mkRat 4 5)) "alpha" = 12000 ∧
    minKey (searchWordTimes simZero cxT1 ["alpha", "beta"]
      (ratMul ((1 : ℕ) : ℚ) (ratSub 15000 3000)) 15000 false (mkRat 4 5)) "beta" = 12000 ∧
    ratAbs (ratSub 12000 12000) ≤ 1000 ∧
    (∀ k ∈ dictKeys (process_loop simZero ["alpha", "beta"] false (mkRat 4 5) [cxT0, cxT1]),
      hasSpace k = false) := by
  refine ⟨by decide, by decide, by decide, by decide, by decide⟩

/-- Witness for the amended C1: the phrase "alpha beta" in the final map was
produced by window 0's own concatenation loop. -/
theorem process_C1_witness :
    ∃ i t, (i, t) ∈ ([tA] : List String).enum ∧
      "alpha beta" ∈ (windowResult simZero ["alpha", "beta"] false (mkRat 4 5) i t).2.1 :=
  process_C1_amended simZero ["alpha", "beta"] false (mkRat 4 5) [tA] (by decide)
    "alpha beta" ["00:00:00"] (by decide) (by decide)

/-- Witness for C10: over two identical windows both producing the phrase
"alpha beta", the final map holds exactly one display time for the phrase
key — the one of the earliest window ("00:00:00", not window 1's
"00:00:12"). -/
theorem process_C10_witness :
    dictLookup (process_loop simZero ["alpha", "beta"] false (mkRat 4 5) [tA, tA])
        "alpha beta" =
      (firstPhraseTime simZero ["alpha", "beta"] false (mkRat 4 5) 0 [tA, tA]
        "alpha beta").map (fun tm => [tm]) ∧
    (firstPhraseTime simZero ["alpha", "beta"] false (mkRat 4 5) 0 [tA, tA]
        "alpha beta").map (fun tm => [tm]) = some ["00:00:00"] :=
  ⟨(process_C10 simZero ["alpha", "beta"] false (mkRat 4 5) [tA, tA] (by decide)).2
      "alpha beta" (by decide),
    by decide⟩

end VideoSearch
